import Mathlib

/-!
Verification of the streaming markdown/code-fence splitter of
src/components/Chat.jsx (functions renderWithCodeBlocks and
renderStreamingContent) and of the execution dispatch of
src/components/CodeBlock.jsx (detectLanguage / executeCode / canExecute).

Text is modelled as List Char.  The regex operations of the source are
embedded by their exact JavaScript semantics:

  codeBlockRegex = three backticks, then a greedy run of word characters
  (the optional language tag), then an optional newline, then a lazy body
  up to the first following three-backtick marker. The global exec loop
  repeatedly takes the leftmost match after the previous match end.

The external markdown renderer (marked + DOMPurify) is third-party
library code, not part of this repository; a prose part therefore
records the exact string the source passes to that renderer, so every
claim about segment structure and about the text reaching the renderer
is expressed over these recorded strings.
-/

/-- The backtick character, written via its code point. -/
def btick : Char := Char.ofNat 96

/-- JavaScript regex word characters, the class matched by the language
tag capture group. -/
def isWordChar (c : Char) : Bool := c.isAlpha || c.isDigit || c == '_'

/-- Does the text begin with a three-backtick fence marker? -/
def startsWithFence : List Char → Bool
  | a :: b :: c :: _ => a == btick && b == btick && c == btick
  | _ => false

/-- Does the text begin with a fence marker directly followed by a
newline (the four-character needle of lastIndexOf in Chat.jsx line 100)? -/
def startsWithFenceNl : List Char → Bool
  | a :: b :: c :: d :: _ => a == btick && b == btick && c == btick && d == '\n'
  | _ => false

/-- Does a three-backtick marker occur anywhere in the text? -/
def containsFence : List Char → Bool
  | [] => false
  | c :: t => startsWithFence (c :: t) || containsFence t

/-- Is the head, if any, not a word character (used to state maximality
of the greedy tag capture)? -/
def headNotWord : List Char → Bool
  | [] => true
  | c :: _ => !isWordChar c

/-- Is the head, if any, not a backtick? -/
def headNeTick : List Char → Bool
  | [] => true
  | c :: _ => c != btick

/-- Does a fence-then-newline occur anywhere in the text? -/
def containsFenceNl : List Char → Bool
  | [] => false
  | c :: t => startsWithFenceNl (c :: t) || containsFenceNl t

/-- Greedy match of the word-character run at the front of the text,
returning the run and the remainder; the capture (\w+)? of the fence
regexes. -/
def takeWord : List Char → List Char × List Char
  | [] => ([], [])
  | c :: t =>
    if isWordChar c then (c :: (takeWord t).1, (takeWord t).2)
    else ([], c :: t)

/-- Consume one optional leading newline. -/
def dropNl : List Char → List Char
  | [] => []
  | c :: t => if c == '\n' then t else c :: t

/-- After a fence marker, consume the language tag and the optional
newline, leaving the start of the block body. -/
def munchTag (s : List Char) : List Char := dropNl (takeWord s).2

/-- Split the text at the first three-backtick occurrence: the part
before it and the part after it.  This is the lazy body capture running
up to the closing fence. -/
def splitAtFence : List Char → Option (List Char × List Char)
  | [] => none
  | c :: t =>
    if startsWithFence (c :: t) then some ([], t.drop 2)
    else
      match splitAtFence t with
      | some (a, b) => some (c :: a, b)
      | none => none

/-- Attempt to match the remainder of a complete block immediately after
an opening fence marker: language tag, optional newline, body up to the
first closing marker, and the text after the match. -/
def matchBlockAt (s : List Char) : Option (List Char × List Char × List Char) :=
  match splitAtFence (munchTag s) with
  | some (content, rest) => some ((takeWord s).1, content, rest)
  | none => none

/-- Leftmost complete fenced block: the text before the match, the
language tag, the body, and the text after the match.  Mirrors one
iteration of the exec loop of renderWithCodeBlocks, where a fence with
no closing marker is skipped and the scan resumes one character later. -/
def findBlock : List Char → Option (List Char × List Char × List Char × List Char)
  | [] => none
  | c :: t =>
    match (if startsWithFence (c :: t) then matchBlockAt (t.drop 2) else none) with
    | some (l, content, r) => some ([], l, content, r)
    | none =>
      match findBlock t with
      | some (b, l, content, r) => some (c :: b, l, content, r)
      | none => none

/-- Remove trailing whitespace. -/
def trimEnd : List Char → List Char
  | [] => []
  | c :: t =>
    match trimEnd t with
    | [] => if c.isWhitespace then [] else [c]
    | r => c :: r

/-- JavaScript String.trim on our character model. -/
def trimList (s : List Char) : List Char := trimEnd (s.dropWhile Char.isWhitespace)

/-- Global replace of the second cleanup regex of Chat.jsx lines 40 and
65: every three-backtick occurrence is removed, scanning left to right
and resuming after each removed match. -/
def stripTicks : List Char → List Char
  | [] => []
  | [c] => [c]
  | [c, d] => [c, d]
  | a :: b :: c :: t =>
    if a == btick && b == btick && c == btick then stripTicks t
    else a :: stripTicks (b :: c :: t)

/-- Fuel-indexed form of the first cleanup replace (fence marker, word
characters, optional newline), so that it stays structurally recursive. -/
def stripFenceLineF : Nat → List Char → List Char
  | 0, s => s
  | _ + 1, [] => []
  | fuel + 1, c :: t =>
    if startsWithFence (c :: t) then stripFenceLineF fuel (munchTag (t.drop 2))
    else c :: stripFenceLineF fuel t

/-- Global replace of the first cleanup regex of Chat.jsx lines 40 and
65: every fence marker together with its tag and optional newline is
removed. -/
def stripFenceLine (s : List Char) : List Char := stripFenceLineF s.length s

/-- The cleanup applied to a text span before it is rendered: both
global replaces in order. -/
def cleanText (s : List Char) : List Char := stripTicks (stripFenceLine s)

/-- A segment produced by the splitter.  A text part records the string
handed to the external markdown renderer; code parts record raw code. -/
inductive Seg where
  | text (content : List Char)
  | code (language : List Char) (content : List Char)
  | streamingCode (language : List Char) (content : List Char)
deriving DecidableEq, Repr

/-- Is a part the in-progress streaming code variant? -/
def isStreamingPart : Seg → Bool
  | Seg.streamingCode _ _ => true
  | _ => false

/-- Handling of a text span between or around fenced blocks: dropped
when blank, otherwise cleaned of fence syntax and dropped when the
cleaned text is blank. -/
def processText (s : List Char) : List Seg :=
  if trimList s = [] then []
  else if trimList (cleanText s) = [] then []
  else [Seg.text (cleanText s)]

/-- Fuel-indexed exec loop of renderWithCodeBlocks: emit the span before
each complete block, the block itself with trimmed body, and continue
after the match; the final span is handled like the others. -/
def scanBlocksF : Nat → List Char → List Seg
  | 0, s => processText s
  | fuel + 1, s =>
    match findBlock s with
    | none => processText s
    | some (before, l, content, r) =>
      processText before ++ Seg.code l (trimList content) :: scanBlocksF fuel r

/-- The exec loop of renderWithCodeBlocks. -/
def scanBlocks (s : List Char) : List Seg := scanBlocksF s.length s

/-- renderWithCodeBlocks of Chat.jsx: the scan, with the whole raw text
rendered as a single prose part when the scan produced nothing. -/
def renderWithCodeBlocks (t : List Char) : List Seg :=
  let parts := scanBlocks t
  if parts = [] then [Seg.text t] else parts

/-- Does the text end with a three-backtick marker? -/
def endsWithTicks (s : List Char) : Bool := startsWithFence s.reverse

/-- The end-anchored complete-block regex test of Chat.jsx line 96:
some fence marker, its tag and optional newline, then a lazy body, then
a closing marker at the very end of the text. -/
def endsWithCompleteBlock : List Char → Bool
  | [] => false
  | c :: t =>
    (startsWithFence (c :: t) && endsWithTicks (munchTag (t.drop 2)))
      || endsWithCompleteBlock t

/-- Index of the last three-backtick occurrence (lastIndexOf of Chat.jsx
line 101). -/
def lastFenceIdx : List Char → Option Nat
  | [] => none
  | c :: t =>
    match lastFenceIdx t with
    | some i => some (i + 1)
    | none => if startsWithFence (c :: t) then some 0 else none

/-- Index of the last fence-then-newline occurrence (lastIndexOf of
Chat.jsx line 100). -/
def lastFenceNlIdx : List Char → Option Nat
  | [] => none
  | c :: t =>
    match lastFenceNlIdx t with
    | some i => some (i + 1)
    | none => if startsWithFenceNl (c :: t) then some 0 else none

/-- renderStreamingContent of Chat.jsx: the complete-block scan, then
the incomplete-trailing-block heuristics.  When the last fence marker
lies strictly after the end of the last fence-newline occurrence plus
four (or after position zero when there is none), everything from that
marker on becomes one streaming code part and the text before it is
re-split. -/
def renderStreamingContent (t : List Char) : List Seg :=
  if containsFence t && !endsWithCompleteBlock t then
    match lastFenceIdx t with
    | none => renderWithCodeBlocks t
    | some incompleteStart =>
      if (match lastFenceNlIdx t with | some i => i + 4 | none => 0) < incompleteStart then
        (if t.take incompleteStart = [] then []
          else renderWithCodeBlocks (t.take incompleteStart))
          ++ [Seg.streamingCode (takeWord ((t.drop incompleteStart).drop 3)).1
                (munchTag ((t.drop incompleteStart).drop 3))]
      else renderWithCodeBlocks t
  else renderWithCodeBlocks t

/-- Does the first list occur at the front of the second? -/
def listStartsWith : List Char → List Char → Bool
  | [], _ => true
  | _ :: _, [] => false
  | a :: pre, b :: s => a == b && listStartsWith pre s

/-- JavaScript String.includes on our character model. -/
def containsList (needle : List Char) : List Char → Bool
  | [] => needle.isEmpty
  | c :: t => listStartsWith needle (c :: t) || containsList needle t

/-- Character-wise lower-casing, String.toLowerCase. -/
def toLowerList (s : List Char) : List Char := s.map Char.toLower

/-- The className regex of detectLanguage: the word-character run after
the first occurrence of language- that is followed by at least one word
character. -/
def classNameLang : List Char → Option (List Char)
  | [] => none
  | c :: t =>
    if listStartsWith "language-".toList (c :: t) then
      match (takeWord ((c :: t).drop 9)).1 with
      | [] => classNameLang t
      | w => some w
    else classNameLang t

/-- detectLanguage of CodeBlock.jsx: explicit tag, then className, then
content heuristics, then the text fallback. -/
def detectLanguage (language : List Char) (className : Option (List Char))
    (editedCode : List Char) : List Char :=
  if language ≠ [] then toLowerList language
  else
    match (match className with | some cn => classNameLang cn | none => none) with
    | some w => toLowerList w
    | none =>
      if containsList "def ".toList editedCode || containsList "import ".toList editedCode
          || containsList "print(".toList editedCode then "python".toList
      else if containsList "function ".toList editedCode || containsList "const ".toList editedCode
          || containsList "console.log".toList editedCode then "javascript".toList
      else if containsList "#include".toList editedCode
          || containsList "int main".toList editedCode then "cpp".toList
      else if containsList "public class".toList editedCode
          || containsList "System.out".toList editedCode then "java".toList
      else "text".toList

/-- The execute-action allow-list of CodeBlock.jsx line 371. -/
def canExecuteList : List (List Char) :=
  ["javascript".toList, "python".toList, "html".toList, "css".toList]

/-- canExecute of CodeBlock.jsx line 371. -/
def canExecute (lang : List Char) : Bool := canExecuteList.contains lang

/-- Result state of one execute-action invocation
(setExecutionStatus in executeCode). -/
inductive ExecStatus where
  | success
  | error
deriving DecidableEq, Repr

/-- The per-language executors (executeJavaScript, executePython,
executeHTML, executeCSS).  They run browser facilities (dynamic code,
Pyodide, iframes), so the embedding abstracts each as a function that
either returns output text or fails with an error description. -/
structure Executors where
  js : List Char → Except (List Char) (List Char)
  py : List Char → Except (List Char) (List Char)
  html : List Char → Except (List Char) (List Char)
  css : List Char → Except (List Char) (List Char)

/-- The default-branch message of the executeCode switch. -/
def execNotSupportedMsg (lang : List Char) : List Char :=
  "Execution not supported for ".toList
    ++ (if lang = [] then "unknown".toList else lang)
    ++ " language yet.".toList

/-- executeCode of CodeBlock.jsx: dispatch on the detected language,
with the fixed default message for anything outside the switch; a
successful branch sets status success (with the no-output fallback text
for empty results), a thrown error sets status error. -/
def dispatchExec (ex : Executors) (lang : List Char)
    (code : List Char) : Except (List Char) (List Char) :=
  if lang = "javascript".toList then ex.js code
  else if lang = "python".toList then ex.py code
  else if lang = "html".toList then ex.html code
  else if lang = "css".toList then ex.css code
  else Except.ok (execNotSupportedMsg lang)

def executeCode (ex : Executors) (language : List Char)
    (className : Option (List Char)) (code : List Char) : ExecStatus × List Char :=
  match dispatchExec ex (detectLanguage language className code) code with
  | Except.ok out =>
    (ExecStatus.success,
      if out = [] then "Code executed successfully (no output)".toList else out)
  | Except.error e => (ExecStatus.error, "Error: ".toList ++ e)

theorem startsWithFence_cons3 (t : List Char) :
    startsWithFence (btick :: btick :: btick :: t) = true := by
  simp [startsWithFence]

theorem eq_of_startsWithFence {s : List Char} (h : startsWithFence s = true) :
    ∃ t, s = btick :: btick :: btick :: t := by
  match s with
  | [] => simp [startsWithFence] at h
  | [a] => simp [startsWithFence] at h
  | [a, b] => simp [startsWithFence] at h
  | a :: b :: c :: t =>
    simp [startsWithFence] at h
    exact ⟨t, by simp [h.1.1, h.1.2, h.2]⟩

theorem startsWithFence_head {c : Char} {t : List Char}
    (h : startsWithFence (c :: t) = true) : c = btick := by
  obtain ⟨u, hu⟩ := eq_of_startsWithFence h
  exact (List.cons.injEq _ _ _ _ ▸ hu).1

theorem startsWithFence_append {s : List Char} (u : List Char)
    (h : startsWithFence s = true) : startsWithFence (s ++ u) = true := by
  obtain ⟨t, rfl⟩ := eq_of_startsWithFence h
  simpa using startsWithFence_cons3 (t ++ u)

theorem containsFence_append_fence (x y : List Char) :
    containsFence (x ++ btick :: btick :: btick :: y) = true := by
  induction x with
  | nil => simp [containsFence, startsWithFence_cons3]
  | cons c t ih => simp [containsFence, ih]

theorem containsFence_append_left {a b : List Char}
    (h : containsFence (a ++ b) = false) : containsFence a = false := by
  induction a with
  | nil => rfl
  | cons c t ih =>
    rw [List.cons_append, containsFence, Bool.or_eq_false_iff] at h
    rw [containsFence, Bool.or_eq_false_iff]
    refine ⟨?_, ih h.2⟩
    by_contra hne
    have hsw : startsWithFence (c :: t) = true := by
      cases hv : startsWithFence (c :: t) with
      | false => exact absurd hv hne
      | true => rfl
    have := startsWithFence_append b hsw
    rw [List.cons_append] at this
    rw [this] at h
    exact absurd h.1 (by simp)

theorem containsFence_append_right {a b : List Char}
    (h : containsFence (a ++ b) = false) : containsFence b = false := by
  induction a with
  | nil => simpa using h
  | cons c t ih =>
    rw [List.cons_append, containsFence, Bool.or_eq_false_iff] at h
    exact ih h.2

theorem noTick_noFence {s : List Char} (h : ∀ c ∈ s, c ≠ btick) :
    containsFence s = false := by
  induction s with
  | nil => rfl
  | cons c t ih =>
    rw [containsFence, Bool.or_eq_false_iff]
    constructor
    · by_contra hne
      have hsw : startsWithFence (c :: t) = true := by
        cases hv : startsWithFence (c :: t) with
        | false => exact absurd hv hne
        | true => rfl
      exact h c (List.mem_cons_self c t) (startsWithFence_head hsw)
    · exact ih (fun x hx => h x (List.mem_cons_of_mem c hx))

theorem containsFence_drop {s : List Char} (n : Nat)
    (h : containsFence s = false) : containsFence (s.drop n) = false := by
  have h2 : s.take n ++ s.drop n = s := List.take_append_drop n s
  rw [← h2] at h
  exact containsFence_append_right h

theorem takeWord_decomp (s : List Char) : (takeWord s).1 ++ (takeWord s).2 = s := by
  induction s with
  | nil => rfl
  | cons c t ih =>
    rw [takeWord]
    split
    · simpa using ih
    · rfl

theorem takeWord_append {w r : List Char} (hw : w.all isWordChar = true)
    (hr : headNotWord r = true) : takeWord (w ++ r) = (w, r) := by
  induction w with
  | nil =>
    cases r with
    | nil => rfl
    | cons c t =>
      rw [headNotWord, Bool.not_eq_true'] at hr
      simp [takeWord, hr]
  | cons a w2 ih =>
    rw [List.all_cons, Bool.and_eq_true] at hw
    rw [List.cons_append, takeWord, if_pos hw.1, ih hw.2]

theorem takeWord_len (s : List Char) : (takeWord s).2.length ≤ s.length := by
  induction s with
  | nil => simp [takeWord]
  | cons c t ih =>
    rw [takeWord]
    split
    · simpa using Nat.le_succ_of_le ih
    · simp

theorem dropNl_decomp (s : List Char) : ∃ u, s = u ++ dropNl s := by
  cases s with
  | nil => exact ⟨[], rfl⟩
  | cons c t =>
    rw [dropNl]
    split
    · exact ⟨[c], rfl⟩
    · exact ⟨[], rfl⟩

theorem dropNl_len (s : List Char) : (dropNl s).length ≤ s.length := by
  obtain ⟨u, hu⟩ := dropNl_decomp s
  conv_rhs => rw [hu]
  simp

theorem munchTag_decomp (s : List Char) : ∃ u, s = u ++ munchTag s := by
  obtain ⟨v, hv⟩ := dropNl_decomp (takeWord s).2
  refine ⟨(takeWord s).1 ++ v, ?_⟩
  rw [munchTag, List.append_assoc, ← hv, takeWord_decomp]

theorem munchTag_len (s : List Char) : (munchTag s).length ≤ s.length := by
  obtain ⟨u, hu⟩ := munchTag_decomp s
  conv_rhs => rw [hu]
  simp

theorem containsFence_munchTag {s : List Char} (h : containsFence s = false) :
    containsFence (munchTag s) = false := by
  obtain ⟨u, hu⟩ := munchTag_decomp s
  exact containsFence_append_right (a := u) (hu ▸ h)

theorem munchTag_word_nl {L : List Char} (C : List Char)
    (hL : L.all isWordChar = true) : munchTag (L ++ '\n' :: C) = C := by
  rw [munchTag, takeWord_append hL (by rfl)]
  simp [dropNl]

theorem splitAtFence_decomp {s a b : List Char} (h : splitAtFence s = some (a, b)) :
    s = a ++ btick :: btick :: btick :: b := by
  induction s generalizing a b with
  | nil => simp [splitAtFence] at h
  | cons c t ih =>
    rw [splitAtFence] at h
    split at h
    · rename_i hf
      obtain ⟨u, hu⟩ := eq_of_startsWithFence hf
      injection hu with h1 h2
      subst h1
      subst h2
      simp at h
      obtain ⟨rfl, rfl⟩ := h
      simp
    · rename_i hf
      cases hsp : splitAtFence t with
      | none => rw [hsp] at h; simp at h
      | some ab =>
        obtain ⟨a2, b2⟩ := ab
        rw [hsp] at h
        simp at h
        rw [← h.1, ← h.2, List.cons_append, ih hsp]

theorem splitAtFence_none_of {s : List Char} (h : containsFence s = false) :
    splitAtFence s = none := by
  induction s with
  | nil => rfl
  | cons c t ih =>
    rw [containsFence, Bool.or_eq_false_iff] at h
    simp [splitAtFence, h.1, ih h.2]

theorem splitAtFence_before {s a b : List Char} (h : splitAtFence s = some (a, b)) :
    containsFence a = false := by
  induction s generalizing a b with
  | nil => simp [splitAtFence] at h
  | cons c t ih =>
    rw [splitAtFence] at h
    split at h
    · simp at h
      obtain ⟨rfl, -⟩ := h
      rfl
    · rename_i hf
      cases hsp : splitAtFence t with
      | none => rw [hsp] at h; simp at h
      | some ab =>
        obtain ⟨a2, b2⟩ := ab
        rw [hsp] at h
        simp at h
        rw [← h.1, containsFence, Bool.or_eq_false_iff]
        refine ⟨?_, ih hsp⟩
        by_contra hne
        have hsw : startsWithFence (c :: a2) = true := by
          cases hv : startsWithFence (c :: a2) with
          | false => exact absurd hv hne
          | true => rfl
        obtain ⟨v, hv⟩ := eq_of_startsWithFence hsw
        injection hv with h1 h2
        have hd := splitAtFence_decomp hsp
        rw [h2, List.cons_append, List.cons_append] at hd
        apply hf
        rw [h1, hd]
        exact startsWithFence_cons3 _

theorem splitAtFence_append {B : List Char} (s : List Char)
    (h1 : containsFence B = false) (h2 : B.getLast? ≠ some btick) :
    splitAtFence (B ++ btick :: btick :: btick :: s) = some (B, s) := by
  induction B with
  | nil => simp [splitAtFence, startsWithFence_cons3]
  | cons c B2 ih =>
    rw [containsFence, Bool.or_eq_false_iff] at h1
    have hf : startsWithFence (c :: (B2 ++ btick :: btick :: btick :: s)) = false := by
      by_contra hne
      have hsw : startsWithFence (c :: (B2 ++ btick :: btick :: btick :: s)) = true := by
        cases hv : startsWithFence (c :: (B2 ++ btick :: btick :: btick :: s)) with
        | false => exact absurd hv hne
        | true => rfl
      obtain ⟨v, hv⟩ := eq_of_startsWithFence hsw
      injection hv with hc hrest
      cases B2 with
      | nil =>
        exact h2 (by simp [hc])
      | cons d B3 =>
        rw [List.cons_append] at hrest
        injection hrest with hd hrest2
        cases B3 with
        | nil =>
          exact h2 (by simp [hd])
        | cons e B4 =>
          rw [List.cons_append] at hrest2
          injection hrest2 with he _
          apply absurd h1.1
          rw [hc, hd, he]
          simp [startsWithFence_cons3]
    have h2b : B2.getLast? ≠ some btick := by
      cases B2 with
      | nil => simp
      | cons d B3 =>
        rw [List.getLast?_cons_cons] at h2
        exact h2
    rw [List.cons_append, splitAtFence, if_neg (by simp [hf]), ih h1.2 h2b]

theorem splitAtFence_len {s a b : List Char} (h : splitAtFence s = some (a, b)) :
    b.length + 3 ≤ s.length := by
  rw [splitAtFence_decomp h]
  simp

theorem matchBlockAt_some {L C : List Char} (rest : List Char)
    (hL : L.all isWordChar = true) (hC1 : containsFence C = false)
    (hC2 : C.getLast? ≠ some btick) :
    matchBlockAt (L ++ '\n' :: (C ++ btick :: btick :: btick :: rest)) = some (L, C, rest) := by
  rw [matchBlockAt, munchTag_word_nl _ hL, splitAtFence_append rest hC1 hC2,
    takeWord_append hL (by rfl)]

theorem matchBlockAt_none_of {s : List Char} (h : containsFence (munchTag s) = false) :
    matchBlockAt s = none := by
  rw [matchBlockAt, splitAtFence_none_of h]

theorem matchBlockAt_len {s l c r : List Char} (h : matchBlockAt s = some (l, c, r)) :
    r.length + 3 ≤ s.length := by
  rw [matchBlockAt] at h
  cases hsp : splitAtFence (munchTag s) with
  | none => rw [hsp] at h; simp at h
  | some ab =>
    obtain ⟨a2, b2⟩ := ab
    rw [hsp] at h
    simp at h
    rw [← h.2.2]
    exact le_trans (splitAtFence_len hsp) (munchTag_len s)

theorem matchBlockAt_content {s l c r : List Char} (h : matchBlockAt s = some (l, c, r)) :
    containsFence c = false := by
  rw [matchBlockAt] at h
  cases hsp : splitAtFence (munchTag s) with
  | none => rw [hsp] at h; simp at h
  | some ab =>
    obtain ⟨a2, b2⟩ := ab
    rw [hsp] at h
    simp at h
    rw [← h.2.1]
    exact splitAtFence_before hsp

theorem findBlock_none_of {s : List Char} (h : containsFence s = false) :
    findBlock s = none := by
  induction s with
  | nil => rfl
  | cons c t ih =>
    rw [containsFence, Bool.or_eq_false_iff] at h
    simp [findBlock, h.1, ih h.2]

theorem findBlock_fence {v l c r : List Char} (h : matchBlockAt v = some (l, c, r)) :
    findBlock (btick :: btick :: btick :: v) = some ([], l, c, r) := by
  simp [findBlock, startsWithFence_cons3, h]

theorem findBlock_len {s b l c r : List Char} (h : findBlock s = some (b, l, c, r)) :
    r.length < s.length := by
  induction s generalizing b l c r with
  | nil => simp [findBlock] at h
  | cons ch t ih =>
    rw [findBlock] at h
    by_cases hf : startsWithFence (ch :: t) = true
    · rw [if_pos hf] at h
      cases hm : matchBlockAt (t.drop 2) with
      | some x =>
        obtain ⟨l2, c2, r2⟩ := x
        rw [hm] at h
        simp at h
        obtain ⟨h1, h2, h3, h4⟩ := h
        subst h4
        have h5 := matchBlockAt_len hm
        rw [List.length_drop] at h5
        simp only [List.length_cons]
        omega
      | none =>
        rw [hm] at h
        cases hft : findBlock t with
        | none => rw [hft] at h; simp at h
        | some y =>
          obtain ⟨b2, l2, c2, r2⟩ := y
          rw [hft] at h
          simp at h
          obtain ⟨h1, h2, h3, h4⟩ := h
          subst h4
          simp only [List.length_cons]
          exact Nat.lt_succ_of_lt (ih hft)
    · rw [if_neg hf] at h
      cases hft : findBlock t with
      | none => rw [hft] at h; simp at h
      | some y =>
        obtain ⟨b2, l2, c2, r2⟩ := y
        rw [hft] at h
        simp at h
        obtain ⟨h1, h2, h3, h4⟩ := h
        subst h4
        simp only [List.length_cons]
        exact Nat.lt_succ_of_lt (ih hft)

theorem findBlock_content {s b l c r : List Char} (h : findBlock s = some (b, l, c, r)) :
    containsFence c = false := by
  induction s generalizing b l c r with
  | nil => simp [findBlock] at h
  | cons ch t ih =>
    rw [findBlock] at h
    by_cases hf : startsWithFence (ch :: t) = true
    · rw [if_pos hf] at h
      cases hm : matchBlockAt (t.drop 2) with
      | some x =>
        obtain ⟨l2, c2, r2⟩ := x
        rw [hm] at h
        simp at h
        obtain ⟨h1, h2, h3, h4⟩ := h
        subst h3
        exact matchBlockAt_content hm
      | none =>
        rw [hm] at h
        cases hft : findBlock t with
        | none => rw [hft] at h; simp at h
        | some y =>
          obtain ⟨b2, l2, c2, r2⟩ := y
          rw [hft] at h
          simp at h
          obtain ⟨h1, h2, h3, h4⟩ := h
          subst h3
          exact ih hft
    · rw [if_neg hf] at h
      cases hft : findBlock t with
      | none => rw [hft] at h; simp at h
      | some y =>
        obtain ⟨b2, l2, c2, r2⟩ := y
        rw [hft] at h
        simp at h
        obtain ⟨h1, h2, h3, h4⟩ := h
        subst h3
        exact ih hft

theorem findBlock_append_clean {p : List Char} (u : List Char)
    (hp : ∀ x ∈ p, x ≠ btick) :
    findBlock (p ++ u) =
      match findBlock u with
      | none => none
      | some (b, l, c, r) => some (p ++ b, l, c, r) := by
  induction p with
  | nil =>
    simp only [List.nil_append]
    cases findBlock u with
    | none => rfl
    | some y => obtain ⟨b, l, c, r⟩ := y; simp
  | cons ch p2 ih =>
    have hc : ch ≠ btick := hp ch (List.mem_cons_self _ _)
    have hf : startsWithFence (ch :: (p2 ++ u)) = false := by
      cases hv : startsWithFence (ch :: (p2 ++ u)) with
      | false => rfl
      | true => exact absurd (startsWithFence_head hv) hc
    rw [List.cons_append, findBlock, if_neg (by simp [hf]),
      ih (fun x hx => hp x (List.mem_cons_of_mem _ hx))]
    cases findBlock u with
    | none => rfl
    | some y => obtain ⟨b, l, c, r⟩ := y; simp

theorem scanBlocksF_congr : ∀ (n : Nat) (s : List Char) (f1 f2 : Nat), s.length ≤ n →
    s.length ≤ f1 → s.length ≤ f2 → scanBlocksF f1 s = scanBlocksF f2 s := by
  intro n
  induction n using Nat.strong_induction_on with
  | _ n ih =>
    intro s f1 f2 hn h1 h2
    match f1, f2 with
    | 0, 0 => rfl
    | 0, g + 1 =>
      have hs : s = [] := List.length_eq_zero.mp (Nat.le_zero.mp h1)
      subst hs
      simp [scanBlocksF, findBlock]
    | g + 1, 0 =>
      have hs : s = [] := List.length_eq_zero.mp (Nat.le_zero.mp h2)
      subst hs
      simp [scanBlocksF, findBlock]
    | g1 + 1, g2 + 1 =>
      rw [scanBlocksF, scanBlocksF]
      cases hfb : findBlock s with
      | none => rfl
      | some y =>
        obtain ⟨b, l, c, r⟩ := y
        have hr := findBlock_len hfb
        have heq : scanBlocksF g1 r = scanBlocksF g2 r :=
          ih (s.length - 1) (by omega) r g1 g2 (by omega) (by omega) (by omega)
        simp [heq]

theorem scanBlocks_eq (s : List Char) :
    scanBlocks s =
      match findBlock s with
      | none => processText s
      | some (b, l, c, r) => processText b ++ Seg.code l (trimList c) :: scanBlocks r := by
  rw [scanBlocks]
  cases hlen : s.length with
  | zero =>
    have hs : s = [] := List.length_eq_zero.mp hlen
    subst hs
    simp [scanBlocksF, findBlock]
  | succ n =>
    rw [scanBlocksF]
    cases hfb : findBlock s with
    | none => rfl
    | some y =>
      obtain ⟨b, l, c, r⟩ := y
      have hr := findBlock_len hfb
      have heq : scanBlocksF n r = scanBlocks r := by
        rw [scanBlocks]
        exact scanBlocksF_congr r.length r n r.length (le_refl _) (by omega) (le_refl _)
      simp [heq]

theorem trimEnd_prefix (s : List Char) : ∃ u, s = trimEnd s ++ u := by
  induction s with
  | nil => exact ⟨[], rfl⟩
  | cons c t ih =>
    rw [trimEnd]
    cases hte : trimEnd t with
    | nil =>
      by_cases hw : c.isWhitespace = true
      · rw [if_pos hw]
        exact ⟨c :: t, rfl⟩
      · rw [if_neg hw]
        exact ⟨t, rfl⟩
    | cons d r =>
      obtain ⟨u, hu⟩ := ih
      rw [hte] at hu
      exact ⟨u, by rw [List.cons_append, ← hu]⟩

theorem containsFence_trim {s : List Char} (h : containsFence s = false) :
    containsFence (trimList s) = false := by
  rw [trimList]
  have h1 : containsFence (s.dropWhile Char.isWhitespace) = false := by
    have h2 := List.takeWhile_append_dropWhile (p := Char.isWhitespace) (l := s)
    rw [← h2] at h
    exact containsFence_append_right h
  obtain ⟨u, hu⟩ := trimEnd_prefix (s.dropWhile Char.isWhitespace)
  rw [hu] at h1
  exact containsFence_append_left h1

theorem trimList_cons_ne {c : Char} (t : List Char) (h : c.isWhitespace = false) :
    trimList (c :: t) ≠ [] := by
  rw [trimList, List.dropWhile_cons, if_neg (by simp [h]), trimEnd]
  cases hte : trimEnd t with
  | nil =>
    rw [if_neg (by simp [h])]
    simp
  | cons d r => simp

theorem stripTicks_cons_of_not {c : Char} {t : List Char}
    (h : startsWithFence (c :: t) = false) :
    stripTicks (c :: t) = c :: stripTicks t := by
  match t with
  | [] => rfl
  | [d] => rfl
  | d :: e :: u =>
    have h2 : ((c == btick && d == btick) && e == btick) = false := h
    rw [stripTicks, if_neg (by simp [h2])]

theorem stripTicks_eq_self {s : List Char} (h : containsFence s = false) :
    stripTicks s = s := by
  induction s with
  | nil => rfl
  | cons c t ih =>
    rw [containsFence, Bool.or_eq_false_iff] at h
    rw [stripTicks_cons_of_not h.1, ih h.2]

theorem containsFence_stripTicks : ∀ (n : Nat) (s : List Char), s.length ≤ n →
    containsFence (stripTicks s) = false := by
  intro n
  induction n using Nat.strong_induction_on with
  | _ n ih =>
    intro s hn
    match s with
    | [] => rfl
    | [c] => simp [stripTicks, containsFence, startsWithFence]
    | [c, d] => simp [stripTicks, containsFence, startsWithFence]
    | a :: b :: c :: t =>
      simp only [List.length_cons] at hn
      by_cases hf : startsWithFence (a :: b :: c :: t) = true
      · obtain ⟨u, hu⟩ := eq_of_startsWithFence hf
        injection hu with h1 hu
        injection hu with h2 hu
        injection hu with h3 hu
        subst h1; subst h2; subst h3
        rw [stripTicks, if_pos (by simp)]
        exact ih t.length (by omega) t (le_refl _)
      · have hf2 : startsWithFence (a :: b :: c :: t) = false := by
          cases hv : startsWithFence (a :: b :: c :: t) with
          | false => rfl
          | true => exact absurd hv hf
        rw [stripTicks_cons_of_not hf2, containsFence, Bool.or_eq_false_iff]
        have hrec : containsFence (stripTicks (b :: c :: t)) = false :=
          ih (b :: c :: t).length (by simp; omega) (b :: c :: t) (le_refl _)
        refine ⟨?_, hrec⟩
        by_contra hne
        have hsw : startsWithFence (a :: stripTicks (b :: c :: t)) = true := by
          cases hv : startsWithFence (a :: stripTicks (b :: c :: t)) with
          | false => exact absurd hv hne
          | true => rfl
        obtain ⟨v, hv⟩ := eq_of_startsWithFence hsw
        injection hv with ha hv2
        by_cases hg : startsWithFence (b :: c :: t) = true
        · obtain ⟨w, hw⟩ := eq_of_startsWithFence hg
          injection hw with hb hw2
          injection hw2 with hc hw3
          rw [ha, hb, hc, startsWithFence_cons3] at hf2
          exact absurd hf2 (by simp)
        · have hg2 : startsWithFence (b :: c :: t) = false := by
            cases hv3 : startsWithFence (b :: c :: t) with
            | false => rfl
            | true => exact absurd hv3 hg
          rw [stripTicks_cons_of_not hg2] at hv2
          injection hv2 with hb hv3
          by_cases hh : startsWithFence (c :: t) = true
          · have hc := startsWithFence_head hh
            rw [ha, hb, hc, startsWithFence_cons3] at hf2
            exact absurd hf2 (by simp)
          · have hh2 : startsWithFence (c :: t) = false := by
              cases hv4 : startsWithFence (c :: t) with
              | false => rfl
              | true => exact absurd hv4 hh
            rw [stripTicks_cons_of_not hh2] at hv3
            injection hv3 with hc hv4
            rw [ha, hb, hc, startsWithFence_cons3] at hf2
            exact absurd hf2 (by simp)

theorem containsFence_cleanText (s : List Char) :
    containsFence (cleanText s) = false := by
  rw [cleanText]
  exact containsFence_stripTicks (stripFenceLine s).length (stripFenceLine s) (le_refl _)

theorem stripFenceLineF_congr : ∀ (n : Nat) (s : List Char) (f1 f2 : Nat), s.length ≤ n →
    s.length ≤ f1 → s.length ≤ f2 → stripFenceLineF f1 s = stripFenceLineF f2 s := by
  intro n
  induction n using Nat.strong_induction_on with
  | _ n ih =>
    intro s f1 f2 hn h1 h2
    match f1, f2 with
    | 0, 0 => rfl
    | 0, g + 1 =>
      have hs : s = [] := List.length_eq_zero.mp (Nat.le_zero.mp h1)
      subst hs
      simp [stripFenceLineF]
    | g + 1, 0 =>
      have hs : s = [] := List.length_eq_zero.mp (Nat.le_zero.mp h2)
      subst hs
      simp [stripFenceLineF]
    | g1 + 1, g2 + 1 =>
      match s with
      | [] => rfl
      | c :: t =>
        simp only [List.length_cons] at hn h1 h2
        rw [stripFenceLineF, stripFenceLineF]
        split
        · have hlen : (munchTag (t.drop 2)).length ≤ t.length := by
            have ha := munchTag_len (t.drop 2)
            have hb : (t.drop 2).length ≤ t.length := by simp
            omega
          exact ih (n - 1) (by omega) (munchTag (t.drop 2)) g1 g2 (by omega) (by omega) (by omega)
        · rw [ih (n - 1) (by omega) t g1 g2 (by omega) (by omega) (by omega)]

theorem stripFenceLine_cons (c : Char) (t : List Char) :
    stripFenceLine (c :: t) =
      if startsWithFence (c :: t) then stripFenceLine (munchTag (t.drop 2))
      else c :: stripFenceLine t := by
  rw [stripFenceLine, List.length_cons, stripFenceLineF]
  split
  · rw [stripFenceLine]
    have hlen : (munchTag (t.drop 2)).length ≤ t.length := by
      have ha := munchTag_len (t.drop 2)
      have hb : (t.drop 2).length ≤ t.length := by simp
      omega
    exact stripFenceLineF_congr t.length (munchTag (t.drop 2)) t.length
      (munchTag (t.drop 2)).length hlen hlen (le_refl _)
  · rw [stripFenceLine]

theorem stripFenceLine_eq_self {s : List Char} (h : containsFence s = false) :
    stripFenceLine s = s := by
  induction s with
  | nil => rfl
  | cons c t ih =>
    rw [containsFence, Bool.or_eq_false_iff] at h
    rw [stripFenceLine_cons, if_neg (by simp [h.1]), ih h.2]

theorem cleanText_eq_self {s : List Char} (h : containsFence s = false) :
    cleanText s = s := by
  rw [cleanText, stripFenceLine_eq_self h, stripTicks_eq_self h]

theorem processText_clean {p : List Char} (hp : ∀ x ∈ p, x ≠ btick) :
    processText p = if trimList p = [] then [] else [Seg.text p] := by
  have hct : cleanText p = p := cleanText_eq_self (noTick_noFence hp)
  rw [processText, hct]
  split
  · rfl
  · rename_i hne
    simp [hne]

theorem rwcb_clean {p : List Char} (hp : ∀ x ∈ p, x ≠ btick) :
    renderWithCodeBlocks p = [Seg.text p] := by
  have hcf : containsFence p = false := noTick_noFence hp
  simp only [renderWithCodeBlocks]
  simp only [scanBlocks_eq, findBlock_none_of hcf]
  rw [processText_clean hp]
  by_cases ht : trimList p = [] <;> simp [ht]

theorem processText_mem {s : List Char} {x : Seg} (h : x ∈ processText s) :
    x = Seg.text (cleanText s) := by
  rw [processText] at h
  split at h
  · simp at h
  · split at h
    · simp at h
    · simpa using h

theorem scanBlocks_no_streaming : ∀ (n : Nat) (s : List Char), s.length ≤ n →
    ∀ l c, Seg.streamingCode l c ∉ scanBlocks s := by
  intro n
  induction n using Nat.strong_induction_on with
  | _ n ih =>
    intro s hn l c hmem
    rw [scanBlocks_eq] at hmem
    split at hmem
    · exact Seg.noConfusion (processText_mem hmem)
    · rename_i b l2 c2 r heq
      rw [List.mem_append] at hmem
      rcases hmem with h | h
      · exact Seg.noConfusion (processText_mem h)
      · rw [List.mem_cons] at h
        rcases h with h | h
        · exact Seg.noConfusion h
        · have hr := findBlock_len heq
          exact ih (s.length - 1) (by omega) r (by omega) l c h

theorem rwcb_no_streaming (t : List Char) (l c : List Char) :
    Seg.streamingCode l c ∉ renderWithCodeBlocks t := by
  simp only [renderWithCodeBlocks]
  split
  · simp
  · exact scanBlocks_no_streaming t.length t (le_refl _) l c

theorem word_ne_btick {c : Char} (h : isWordChar c = true) : c ≠ btick := by
  intro heq
  rw [heq] at h
  exact absurd h (by decide)

theorem word_ne_nl {c : Char} (h : isWordChar c = true) : c ≠ '\n' := by
  intro heq
  rw [heq] at h
  exact absurd h (by decide)

theorem eq_of_startsWithFenceNl {s : List Char} (h : startsWithFenceNl s = true) :
    ∃ t, s = btick :: btick :: btick :: '\n' :: t := by
  match s with
  | [] => simp [startsWithFenceNl] at h
  | [a] => simp [startsWithFenceNl] at h
  | [a, b] => simp [startsWithFenceNl] at h
  | [a, b, c] => simp [startsWithFenceNl] at h
  | a :: b :: c :: d :: t =>
    simp [startsWithFenceNl] at h
    exact ⟨t, by simp [h.1.1.1, h.1.1.2, h.1.2, h.2]⟩

theorem swfnl_false_head {c : Char} {t : List Char} (h : c ≠ btick) :
    startsWithFenceNl (c :: t) = false := by
  cases hv : startsWithFenceNl (c :: t) with
  | false => rfl
  | true =>
    obtain ⟨u, hu⟩ := eq_of_startsWithFenceNl hv
    injection hu with h1 _
    exact absurd h1 h

theorem swfnl_false_second {a c : Char} {t : List Char} (h : c ≠ btick) :
    startsWithFenceNl (a :: c :: t) = false := by
  cases hv : startsWithFenceNl (a :: c :: t) with
  | false => rfl
  | true =>
    obtain ⟨u, hu⟩ := eq_of_startsWithFenceNl hv
    injection hu with _ hu
    injection hu with h2 _
    exact absurd h2 h

theorem swfnl_false_third {a b c : Char} {t : List Char} (h : c ≠ btick) :
    startsWithFenceNl (a :: b :: c :: t) = false := by
  cases hv : startsWithFenceNl (a :: b :: c :: t) with
  | false => rfl
  | true =>
    obtain ⟨u, hu⟩ := eq_of_startsWithFenceNl hv
    injection hu with _ hu
    injection hu with _ hu
    injection hu with h3 _
    exact absurd h3 h

theorem swfnl_false_fourth {a b c d : Char} {t : List Char} (h : d ≠ '\n') :
    startsWithFenceNl (a :: b :: c :: d :: t) = false := by
  cases hv : startsWithFenceNl (a :: b :: c :: d :: t) with
  | false => rfl
  | true =>
    obtain ⟨u, hu⟩ := eq_of_startsWithFenceNl hv
    injection hu with _ hu
    injection hu with _ hu
    injection hu with _ hu
    injection hu with h4 _
    exact absurd h4 h

theorem containsFenceNl_noTick {s : List Char} (h : ∀ x ∈ s, x ≠ btick) :
    containsFenceNl s = false := by
  induction s with
  | nil => rfl
  | cons c t ih =>
    rw [containsFenceNl, swfnl_false_head (h c (List.mem_cons_self _ _)),
      ih (fun x hx => h x (List.mem_cons_of_mem _ hx))]
    rfl

theorem containsFenceNl_cons_false {c : Char} {t : List Char}
    (h1 : startsWithFenceNl (c :: t) = false) (h2 : containsFenceNl t = false) :
    containsFenceNl (c :: t) = false := by
  rw [containsFenceNl, h1, h2]
  rfl

theorem lastFenceNlIdx_none_of {s : List Char} (h : containsFenceNl s = false) :
    lastFenceNlIdx s = none := by
  induction s with
  | nil => rfl
  | cons c t ih =>
    rw [containsFenceNl, Bool.or_eq_false_iff] at h
    simp [lastFenceNlIdx, ih h.2, h.1]

theorem swf_one {u : List Char} (hu : headNeTick u = true) :
    startsWithFence (btick :: u) = false := by
  match u with
  | [] => rfl
  | [c] => rfl
  | c :: d :: v =>
    rw [headNeTick, bne_iff_ne] at hu
    simp [startsWithFence, hu]

theorem swf_two {u : List Char} (hu : headNeTick u = true) :
    startsWithFence (btick :: btick :: u) = false := by
  match u with
  | [] => rfl
  | c :: v =>
    rw [headNeTick, bne_iff_ne] at hu
    simp [startsWithFence, hu]

theorem endsWithTicks_false_of_noFence {s : List Char} (h : containsFence s = false) :
    endsWithTicks s = false := by
  cases hv : endsWithTicks s with
  | false => rfl
  | true =>
    rw [endsWithTicks] at hv
    obtain ⟨u, hu⟩ := eq_of_startsWithFence hv
    have hs : s = u.reverse ++ btick :: btick :: btick :: [] := by
      have h2 := congrArg List.reverse hu
      simpa using h2
    rw [hs, containsFence_append_fence] at h
    exact absurd h (by simp)

theorem endsWithTicks_concat (x : List Char) :
    endsWithTicks (x ++ btick :: btick :: btick :: []) = true := by
  rw [endsWithTicks]
  have h : (x ++ btick :: btick :: btick :: []).reverse = btick :: btick :: btick :: x.reverse := by
    simp
  rw [h]
  exact startsWithFence_cons3 _

theorem ewcb_false_of_noFence {s : List Char} (h : containsFence s = false) :
    endsWithCompleteBlock s = false := by
  induction s with
  | nil => rfl
  | cons c t ih =>
    rw [containsFence, Bool.or_eq_false_iff] at h
    rw [endsWithCompleteBlock, h.1, ih h.2]
    rfl

theorem ewcb_cons_false {c : Char} {t : List Char} (h : startsWithFence (c :: t) = false) :
    endsWithCompleteBlock (c :: t) = endsWithCompleteBlock t := by
  rw [endsWithCompleteBlock, h]
  simp

theorem ewcb_append_clean {p : List Char} (u : List Char) (hp : ∀ x ∈ p, x ≠ btick) :
    endsWithCompleteBlock (p ++ u) = endsWithCompleteBlock u := by
  induction p with
  | nil => rfl
  | cons c p2 ih =>
    have hf : startsWithFence (c :: (p2 ++ u)) = false := by
      cases hv : startsWithFence (c :: (p2 ++ u)) with
      | false => rfl
      | true => exact absurd (startsWithFence_head hv) (hp c (List.mem_cons_self _ _))
    rw [List.cons_append, ewcb_cons_false hf,
      ih (fun x hx => hp x (List.mem_cons_of_mem _ hx))]

theorem ewcb_fence_front (u : List Char) :
    endsWithCompleteBlock (btick :: btick :: btick :: u) =
      (endsWithTicks (munchTag u) || endsWithCompleteBlock (btick :: btick :: u)) := by
  rw [endsWithCompleteBlock]
  simp [startsWithFence_cons3]

theorem lastFenceIdx_none_of {s : List Char} (h : containsFence s = false) :
    lastFenceIdx s = none := by
  induction s with
  | nil => rfl
  | cons c t ih =>
    rw [containsFence, Bool.or_eq_false_iff] at h
    simp [lastFenceIdx, ih h.2, h.1]

theorem lastFenceIdx_append {p : List Char} (u : List Char) (hp : ∀ x ∈ p, x ≠ btick) :
    lastFenceIdx (p ++ u) = (lastFenceIdx u).map (fun i => i + p.length) := by
  induction p with
  | nil =>
    simp only [List.nil_append, List.length_nil]
    cases lastFenceIdx u with
    | none => rfl
    | some i => simp
  | cons c p2 ih =>
    have hf : startsWithFence (c :: (p2 ++ u)) = false := by
      cases hv : startsWithFence (c :: (p2 ++ u)) with
      | false => rfl
      | true => exact absurd (startsWithFence_head hv) (hp c (List.mem_cons_self _ _))
    rw [List.cons_append, lastFenceIdx, ih (fun x hx => hp x (List.mem_cons_of_mem _ hx))]
    cases lastFenceIdx u with
    | none => simp [hf]
    | some i =>
      simp only [Option.map_some', List.length_cons, Option.some.injEq]
      omega

theorem lastFenceIdx_fence_front {u : List Char} (h1 : containsFence u = false)
    (h2 : headNeTick u = true) :
    lastFenceIdx (btick :: btick :: btick :: u) = some 0 := by
  have hu : lastFenceIdx u = none := lastFenceIdx_none_of h1
  have e1 : lastFenceIdx (btick :: u) = none := by
    rw [lastFenceIdx, hu, swf_one h2]
    simp
  have e2 : lastFenceIdx (btick :: btick :: u) = none := by
    rw [lastFenceIdx, e1, swf_two h2]
    simp
  rw [lastFenceIdx, e2]
  simp [startsWithFence_cons3]

theorem take_append_len (a b : List Char) : (a ++ b).take a.length = a := by
  induction a with
  | nil => rfl
  | cons c t ih => simp [ih]

theorem drop_append_len (a b : List Char) : (a ++ b).drop a.length = b := by
  induction a with
  | nil => rfl
  | cons c t ih => simp [ih]

theorem rwcb_shape {p L B s : List Char}
    (hp : ∀ x ∈ p, x ≠ btick) (hL : L.all isWordChar = true)
    (hB1 : containsFence B = false) (hB2 : B.getLast? ≠ some btick)
    (hs : ∀ x ∈ s, x ≠ btick) :
    renderWithCodeBlocks
        (p ++ btick :: btick :: btick ::
          (L ++ '\n' :: (B ++ btick :: btick :: btick :: s))) =
      (if trimList p = [] then [] else [Seg.text p])
        ++ Seg.code L (trimList B)
          :: (if trimList s = [] then [] else [Seg.text s]) := by
  have hm : matchBlockAt (L ++ '\n' :: (B ++ btick :: btick :: btick :: s)) =
      some (L, B, s) := matchBlockAt_some s hL hB1 hB2
  have hfb := findBlock_fence hm
  have hfb2 : findBlock
      (p ++ btick :: btick :: btick ::
        (L ++ '\n' :: (B ++ btick :: btick :: btick :: s))) = some (p, L, B, s) := by
    rw [findBlock_append_clean _ hp, hfb]
    simp
  have hss : scanBlocks s = processText s := by
    simp only [scanBlocks_eq, findBlock_none_of (noTick_noFence hs)]
  have hsc : scanBlocks
      (p ++ btick :: btick :: btick ::
        (L ++ '\n' :: (B ++ btick :: btick :: btick :: s))) =
      processText p ++ Seg.code L (trimList B) :: processText s := by
    rw [scanBlocks_eq, hfb2]
    simp [hss]
  simp only [renderWithCodeBlocks, hsc]
  rw [if_neg (by simp)]
  rw [processText_clean hp, processText_clean hs]

theorem containsFence_fence_cons (r : List Char) :
    containsFence (btick :: btick :: btick :: r) = true := by
  rw [containsFence, startsWithFence_cons3]
  rfl

theorem rsc_fence_start {r : List Char} (h1 : containsFence r = false)
    (h2 : headNeTick r = true) :
    renderStreamingContent (btick :: btick :: btick :: r) =
      if trimList (munchTag r) = []
      then [Seg.text (btick :: btick :: btick :: r)]
      else [Seg.text (munchTag r)] := by
  have hmf : containsFence (munchTag r) = false := containsFence_munchTag h1
  have hm : matchBlockAt r = none := matchBlockAt_none_of hmf
  have f0 : findBlock r = none := findBlock_none_of h1
  have f1 : findBlock (btick :: r) = none := by
    rw [findBlock, if_neg (by simp [swf_one h2]), f0]
  have f2 : findBlock (btick :: btick :: r) = none := by
    rw [findBlock, if_neg (by simp [swf_two h2]), f1]
  have ftop : findBlock (btick :: btick :: btick :: r) = none := by
    rw [findBlock, if_pos (startsWithFence_cons3 r)]
    have hd : (btick :: btick :: r).drop 2 = r := rfl
    rw [hd, hm, f2]
  have hclean : cleanText (btick :: btick :: btick :: r) = munchTag r := by
    rw [cleanText, stripFenceLine_cons, if_pos (startsWithFence_cons3 r)]
    have hd : (btick :: btick :: r).drop 2 = r := rfl
    rw [hd, stripFenceLine_eq_self hmf, stripTicks_eq_self hmf]
  have hpt : processText (btick :: btick :: btick :: r) =
      if trimList (munchTag r) = [] then [] else [Seg.text (munchTag r)] := by
    rw [processText, hclean, if_neg (trimList_cons_ne _ (by decide))]
  have hsc : scanBlocks (btick :: btick :: btick :: r) =
      processText (btick :: btick :: btick :: r) := by
    simp only [scanBlocks_eq, ftop]
  have hewcb : endsWithCompleteBlock (btick :: btick :: btick :: r) = false := by
    rw [ewcb_fence_front, endsWithTicks_false_of_noFence hmf,
      ewcb_cons_false (swf_two h2), ewcb_cons_false (swf_one h2),
      ewcb_false_of_noFence h1]
    rfl
  have hlfi : lastFenceIdx (btick :: btick :: btick :: r) = some 0 :=
    lastFenceIdx_fence_front h1 h2
  simp only [renderStreamingContent, renderWithCodeBlocks, hsc, hpt,
    containsFence_fence_cons, hewcb, hlfi]
  by_cases ht : trimList (munchTag r) = []
  · simp [ht]
  · simp [ht]

theorem containsFenceNl_append_clean {p : List Char} (u : List Char)
    (hp : ∀ x ∈ p, x ≠ btick) (hu : containsFenceNl u = false) :
    containsFenceNl (p ++ u) = false := by
  induction p with
  | nil => simpa using hu
  | cons c p2 ih =>
    rw [List.cons_append]
    exact containsFenceNl_cons_false (swfnl_false_head (hp c (List.mem_cons_self _ _)))
      (ih (fun x hx => hp x (List.mem_cons_of_mem _ hx)))

theorem rsc_streaming_shape {P L C : List Char} (hPne : P ≠ [])
    (hP : ∀ x ∈ P, x ≠ btick) (hLne : L ≠ []) (hL : L.all isWordChar = true)
    (hC : ∀ x ∈ C, x ≠ btick) :
    renderStreamingContent (P ++ btick :: btick :: btick :: (L ++ '\n' :: C)) =
      [Seg.text P, Seg.streamingCode L C] := by
  obtain ⟨l0, L2, rfl⟩ : ∃ l0 L2, L = l0 :: L2 := by
    cases L with
    | nil => exact absurd rfl hLne
    | cons a b => exact ⟨a, b, rfl⟩
  have hl0w : isWordChar l0 = true := by
    rw [List.all_cons, Bool.and_eq_true] at hL
    exact hL.1
  have huTick : ∀ x ∈ (l0 :: L2) ++ '\n' :: C, x ≠ btick := by
    intro x hx
    rw [List.mem_append] at hx
    rcases hx with hx | hx
    · rw [List.all_eq_true] at hL
      exact word_ne_btick (hL x hx)
    · rw [List.mem_cons] at hx
      rcases hx with rfl | hx
      · decide
      · exact hC x hx
  have hcfu : containsFence ((l0 :: L2) ++ '\n' :: C) = false := noTick_noFence huTick
  have hhead : headNeTick ((l0 :: L2) ++ '\n' :: C) = true := by
    rw [List.cons_append, headNeTick, bne_iff_ne]
    exact word_ne_btick hl0w
  have hcf : containsFence (P ++ btick :: btick :: btick :: ((l0 :: L2) ++ '\n' :: C)) = true :=
    containsFence_append_fence P _
  have hmu : munchTag ((l0 :: L2) ++ '\n' :: C) = C := munchTag_word_nl C hL
  have hewcb : endsWithCompleteBlock
      (P ++ btick :: btick :: btick :: ((l0 :: L2) ++ '\n' :: C)) = false := by
    rw [ewcb_append_clean _ hP, ewcb_fence_front, hmu,
      endsWithTicks_false_of_noFence (noTick_noFence hC),
      ewcb_cons_false (swf_two hhead), ewcb_cons_false (swf_one hhead),
      ewcb_false_of_noFence hcfu]
    rfl
  have hlfi : lastFenceIdx (P ++ btick :: btick :: btick :: ((l0 :: L2) ++ '\n' :: C)) =
      some P.length := by
    rw [lastFenceIdx_append _ hP, lastFenceIdx_fence_front hcfu hhead]
    simp
  have hcfnlu : containsFenceNl (btick :: btick :: btick :: ((l0 :: L2) ++ '\n' :: C)) = false := by
    rw [List.cons_append]
    apply containsFenceNl_cons_false (swfnl_false_fourth (word_ne_nl hl0w))
    apply containsFenceNl_cons_false (swfnl_false_third (word_ne_btick hl0w))
    apply containsFenceNl_cons_false (swfnl_false_second (word_ne_btick hl0w))
    have h3 := containsFenceNl_noTick huTick
    rw [List.cons_append] at h3
    exact h3
  have hlfnl : lastFenceNlIdx (P ++ btick :: btick :: btick :: ((l0 :: L2) ++ '\n' :: C)) =
      none :=
    lastFenceNlIdx_none_of (containsFenceNl_append_clean _ hP hcfnlu)
  have htake : (P ++ btick :: btick :: btick :: ((l0 :: L2) ++ '\n' :: C)).take P.length = P :=
    take_append_len _ _
  have hdrop : ((P ++ btick :: btick :: btick :: ((l0 :: L2) ++ '\n' :: C)).drop
      P.length).drop 3 = (l0 :: L2) ++ '\n' :: C := by
    rw [drop_append_len]
    rfl
  have htw : takeWord ((l0 :: L2) ++ '\n' :: C) = (l0 :: L2, '\n' :: C) :=
    takeWord_append hL (by rfl)
  have hpos : 0 < P.length := List.length_pos.mpr hPne
  rw [renderStreamingContent]
  split
  · split
    · rename_i heq
      rw [hlfi] at heq
      exact absurd heq (by simp)
    · rename_i i heq
      rw [hlfi] at heq
      have hi : P.length = i := by
        injection heq
      subst hi
      split
      · rw [htake, if_neg hPne, rwcb_clean hP, hdrop, htw, hmu]
        rfl
      · rename_i hge
        exfalso
        apply hge
        rw [hlfnl]
        simpa using hpos
  · rename_i hcond
    rw [hcf, hewcb] at hcond
    simp at hcond

theorem rsc_cases (t : List Char) :
    renderStreamingContent t = renderWithCodeBlocks t ∨
    (∃ bp l c, renderStreamingContent t = bp ++ [Seg.streamingCode l c] ∧
      (bp = [] ∨ ∃ tb, bp = renderWithCodeBlocks tb) ∧
      containsFence t = true ∧ endsWithCompleteBlock t = false) := by
  rw [renderStreamingContent]
  split
  · rename_i hcond
    rw [Bool.and_eq_true, Bool.not_eq_true'] at hcond
    split
    · exact Or.inl rfl
    · split
      · refine Or.inr ⟨_, _, _, rfl, ?_, hcond.1, hcond.2⟩
        split
        · exact Or.inl rfl
        · exact Or.inr ⟨_, rfl⟩
      · exact Or.inl rfl
  · exact Or.inl rfl

theorem scanBlocks_code_content : ∀ (n : Nat) (s : List Char), s.length ≤ n →
    ∀ l c, Seg.code l c ∈ scanBlocks s → containsFence c = false := by
  intro n
  induction n using Nat.strong_induction_on with
  | _ n ih =>
    intro s hn l c hmem
    rw [scanBlocks_eq] at hmem
    split at hmem
    · exact Seg.noConfusion (processText_mem hmem)
    · rename_i b l2 c2 r heq
      rw [List.mem_append] at hmem
      rcases hmem with h | h
      · exact Seg.noConfusion (processText_mem h)
      · rw [List.mem_cons] at h
        rcases h with h | h
        · injection h with h1 h2
          rw [h2]
          exact containsFence_trim (findBlock_content heq)
        · have hr := findBlock_len heq
          exact ih (s.length - 1) (by omega) r (by omega) l c h

theorem rwcb_code_content {t l c : List Char}
    (h : Seg.code l c ∈ renderWithCodeBlocks t) : containsFence c = false := by
  simp only [renderWithCodeBlocks] at h
  split at h
  · simp at h
  · exact scanBlocks_code_content t.length t (le_refl _) l c h

theorem containsFence_of_lastFenceIdx_none {s : List Char}
    (h : lastFenceIdx s = none) : containsFence s = false := by
  induction s with
  | nil => rfl
  | cons c t ih =>
    rw [lastFenceIdx] at h
    cases hlt : lastFenceIdx t with
    | some j => rw [hlt] at h; simp at h
    | none =>
      rw [hlt] at h
      rw [containsFence, Bool.or_eq_false_iff]
      refine ⟨?_, ih hlt⟩
      by_contra hne
      have hf : startsWithFence (c :: t) = true := by
        cases hv : startsWithFence (c :: t) with
        | false => exact absurd hv hne
        | true => rfl
      rw [if_pos hf] at h
      simp at h

theorem lastFenceIdx_suffix_clean : ∀ {s : List Char} {i : Nat},
    lastFenceIdx s = some i → containsFence ((s.drop i).drop 3) = false := by
  intro s
  induction s with
  | nil => intro i h; simp [lastFenceIdx] at h
  | cons c t ih =>
    intro i h
    rw [lastFenceIdx] at h
    cases hlt : lastFenceIdx t with
    | some j =>
      rw [hlt] at h
      simp at h
      rw [← h, List.drop_succ_cons]
      exact ih hlt
    | none =>
      rw [hlt] at h
      by_cases hf : startsWithFence (c :: t) = true
      · rw [if_pos hf] at h
        simp at h
        rw [← h]
        simp only [List.drop_zero]
        have hfree := containsFence_of_lastFenceIdx_none hlt
        have hd : (c :: t).drop 3 = t.drop 2 := rfl
        rw [hd]
        exact containsFence_drop 2 hfree
      · rw [if_neg hf] at h
        simp at h

theorem rsc_streaming_content {t l c : List Char}
    (h : Seg.streamingCode l c ∈ renderStreamingContent t) : containsFence c = false := by
  rw [renderStreamingContent] at h
  split at h
  · split at h
    · exact absurd h (rwcb_no_streaming _ _ _)
    · rename_i i heq
      split at h
      · rw [List.mem_append] at h
        rcases h with h | h
        · split at h
          · simp at h
          · exact absurd h (rwcb_no_streaming _ _ _)
        · rw [List.mem_singleton] at h
          injection h with h1 h2
          rw [h2]
          have hfree := lastFenceIdx_suffix_clean heq
          exact containsFence_munchTag hfree
      · exact absurd h (rwcb_no_streaming _ _ _)
  · exact absurd h (rwcb_no_streaming _ _ _)

theorem rwcb_shape_tag {W B : List Char} {r0 : Char} {R2 : List Char}
    (hW : W.all isWordChar = true) (hr0w : isWordChar r0 = false) (hr0n : r0 ≠ '\n')
    (hRB1 : containsFence ((r0 :: R2) ++ '\n' :: B) = false)
    (hRB2 : ((r0 :: R2) ++ '\n' :: B).getLast? ≠ some btick) :
    renderWithCodeBlocks (btick :: btick :: btick ::
        (W ++ ((r0 :: R2) ++ '\n' :: (B ++ btick :: btick :: btick :: [])))) =
      [Seg.code W (trimList ((r0 :: R2) ++ '\n' :: B))] := by
  have hassoc : (r0 :: R2) ++ '\n' :: (B ++ btick :: btick :: btick :: []) =
      ((r0 :: R2) ++ '\n' :: B) ++ btick :: btick :: btick :: [] := by
    simp
  have htw : takeWord (W ++ ((r0 :: R2) ++ '\n' :: (B ++ btick :: btick :: btick :: []))) =
      (W, (r0 :: R2) ++ '\n' :: (B ++ btick :: btick :: btick :: [])) :=
    takeWord_append hW (by rw [List.cons_append, headNotWord, hr0w]; rfl)
  have hdn : dropNl ((r0 :: R2) ++ '\n' :: (B ++ btick :: btick :: btick :: [])) =
      (r0 :: R2) ++ '\n' :: (B ++ btick :: btick :: btick :: []) := by
    rw [List.cons_append, dropNl, if_neg (by simp [hr0n])]
  have hsp : splitAtFence (((r0 :: R2) ++ '\n' :: B) ++ btick :: btick :: btick :: []) =
      some ((r0 :: R2) ++ '\n' :: B, []) := splitAtFence_append [] hRB1 hRB2
  have hm : matchBlockAt (W ++ ((r0 :: R2) ++ '\n' :: (B ++ btick :: btick :: btick :: []))) =
      some (W, (r0 :: R2) ++ '\n' :: B, []) := by
    rw [matchBlockAt, munchTag, htw]
    simp only []
    rw [hdn, hassoc, hsp]
  have hfb := findBlock_fence hm
  have hsc : scanBlocks (btick :: btick :: btick ::
      (W ++ ((r0 :: R2) ++ '\n' :: (B ++ btick :: btick :: btick :: [])))) =
      Seg.code W (trimList ((r0 :: R2) ++ '\n' :: B)) :: scanBlocks [] := by
    rw [scanBlocks_eq, hfb]
    simp [processText, show trimList ([] : List Char) = [] from rfl]
  have hnil : scanBlocks ([] : List Char) = [] := by
    simp [scanBlocks, scanBlocksF, processText, trimList, trimEnd]
  simp only [renderWithCodeBlocks, hsc, hnil]
  simp

/-- Claim C1, counterexample.  The claim quantifies over every input of
the form prefix + fenced-block + suffix.  With prefix "x`" (which ends
in a backtick) and the well-formed fence "```js\nB\n```", the leftmost
regex match instead starts inside the prefix run of backticks: the
output's only code segment has empty language and content "`js\nB", and
no CompleteCode segment with language "js" and content "B" exists. -/
theorem claim1_counterexample :
    renderWithCodeBlocks ("x````js\nB\n```".toList) =
      [Seg.text (['x']), Seg.code [] ("`js\nB".toList)] ∧
    Seg.code ("js".toList) (['B']) ∉ renderWithCodeBlocks ("x````js\nB\n```".toList) := by
  decide

/-- Claim C1, amended.  For inputs prefix + fence + suffix where the
prefix and suffix contain no backtick, the tag is a word-character run,
and the body contains no fence marker and does not end in a backtick,
renderWithCodeBlocks yields exactly: a Prose segment for the prefix when
its trim is non-blank, the CompleteCode segment with the fence's
language and trimmed body, and a Prose segment for the suffix when its
trim is non-blank. -/
theorem claim1_amended {p L B s : List Char}
    (hp : ∀ x ∈ p, x ≠ btick) (hL : L.all isWordChar = true)
    (hB1 : containsFence B = false) (hB2 : B.getLast? ≠ some btick)
    (hs : ∀ x ∈ s, x ≠ btick) :
    renderWithCodeBlocks (p ++ btick :: btick :: btick ::
        (L ++ '\n' :: (B ++ btick :: btick :: btick :: s))) =
      (if trimList p = [] then [] else [Seg.text p])
        ++ Seg.code L (trimList B)
          :: (if trimList s = [] then [] else [Seg.text s]) :=
  rwcb_shape hp hL hB1 hB2 hs

/-- Claim C1, witness: the specification's own example input
"Hello\n\n```js\nconsole.log(1)\n```\n\nBye". -/
theorem claim1_witness :
    renderWithCodeBlocks ("Hello\n\n".toList ++ btick :: btick :: btick ::
        ("js".toList ++ '\n' ::
          ("console.log(1)\n".toList ++ btick :: btick :: btick :: "\n\nBye".toList))) =
      [Seg.text ("Hello\n\n".toList), Seg.code ("js".toList) ("console.log(1)".toList),
        Seg.text ("\n\nBye".toList)] := by
  rw [claim1_amended (by decide) (by decide) (by decide) (by decide) (by decide)]
  decide

/-- Claim C3, counterexample.  The specification's example input
"```\nno lang here" does not produce a StreamingCode segment: because
the unmatched fence sits at position zero, the lastIndexOf comparison
incompleteStart > lastCompleteCodeEnd fails (0 > 4, as the text starts
with the four characters fence-newline), so the splitter returns the
complete-block scan: a single Prose segment over "no lang here". -/
theorem claim3_counterexample :
    renderStreamingContent ("```\nno lang here".toList) =
      [Seg.text ("no lang here".toList)] ∧
    (∀ x ∈ renderStreamingContent ("```\nno lang here".toList),
      isStreamingPart x = false) := by
  decide

/-- Claim C3, amended.  For every input that is an opening fence at
position zero followed by text with no further fence marker and not
starting with a backtick, the splitter returns exactly one Prose
segment, never a StreamingCode segment: the segment's source is the
input with the fence marker, tag and optional newline stripped when
that remainder is non-blank, and the raw input otherwise. -/
theorem claim3_amended {r : List Char} (h1 : containsFence r = false)
    (h2 : headNeTick r = true) :
    renderStreamingContent (btick :: btick :: btick :: r) =
      if trimList (munchTag r) = []
      then [Seg.text (btick :: btick :: btick :: r)]
      else [Seg.text (munchTag r)] :=
  rsc_fence_start h1 h2

/-- Claim C3, witness at the input "```\nno lang here" and at the lone
fence "```". -/
theorem claim3_witness :
    containsFence ("\nno lang here".toList) = false ∧
    renderStreamingContent (btick :: btick :: btick :: ("\nno lang here".toList)) =
      [Seg.text ("no lang here".toList)] ∧
    renderStreamingContent (btick :: btick :: btick :: ([] : List Char)) =
      [Seg.text [btick, btick, btick]] := by
  refine ⟨by decide, ?_, ?_⟩
  · rw [claim3_amended (by decide) (by decide)]
    decide
  · rw [claim3_amended (by decide) (by decide)]
    decide

/-- Claim C4, counterexample.  The empty input does not give an empty
segment sequence: the scan finds no parts and the fallback of
renderWithCodeBlocks lines 75-83 pushes one Prose segment rendering the
whole (empty) input. -/
theorem claim4_counterexample : renderStreamingContent [] ≠ [] := by
  decide

/-- Claim C4, amended.  The empty input yields exactly one Prose
segment whose source is the empty string (the rendered whole input),
not an error and not an empty sequence. -/
theorem claim4_amended :
    renderStreamingContent [] = [Seg.text []] ∧
    renderWithCodeBlocks [] = [Seg.text []] := by
  decide

/-- Claim C2, counterexample.  On the input "```js\nx\n``` t" the final
opening fence (position 0) has a matching closing fence: findBlock
finds the complete block with language "js" and body "x\n" closed by
the fence at position 8.  Yet the streaming splitter emits a
StreamingCode segment, because the trailing " t" after the closing
fence defeats the end-anchored completeness test and the
lastIndexOf-based heuristic misreads the closing fence as a new opening
one.  So a StreamingCode segment can appear even when the final opening
fence has a matching closing fence after it. -/
theorem claim2_counterexample :
    (∃ x ∈ renderStreamingContent ("```js\nx\n``` t".toList), isStreamingPart x = true) ∧
    findBlock ("```js\nx\n``` t".toList) =
      some ([], "js".toList, "x\n".toList, " t".toList) := by
  decide

/-- Claim C2, amended.  For every input: every segment other than the
last is Prose or CompleteCode (so at most one StreamingCode exists and
it can only be the last segment), and a StreamingCode segment appears
only when the input contains a fence marker and does not end with the
closing fence of a complete block.  Even then, as the counterexample
shows, the final fence may actually be a closing fence followed by
trailing text. -/
theorem claim2_amended (t : List Char) :
    (∀ x ∈ (renderStreamingContent t).dropLast, isStreamingPart x = false) ∧
    ((∃ x ∈ renderStreamingContent t, isStreamingPart x = true) →
      containsFence t = true ∧ endsWithCompleteBlock t = false) := by
  rcases rsc_cases t with h | ⟨bp, l, c, h, hbp, hcf, hew⟩
  · constructor
    · intro x hx
      have hx2 : x ∈ renderStreamingContent t :=
        (List.dropLast_sublist (renderStreamingContent t)).subset hx
      rw [h] at hx2
      cases x with
      | streamingCode a b => exact absurd hx2 (rwcb_no_streaming t a b)
      | text a => rfl
      | code a b => rfl
    · intro hex
      obtain ⟨x, hx, hs⟩ := hex
      rw [h] at hx
      cases x with
      | streamingCode a b => exact absurd hx (rwcb_no_streaming t a b)
      | text a => exact absurd hs (by simp [isStreamingPart])
      | code a b => exact absurd hs (by simp [isStreamingPart])
  · have hd : (bp ++ [Seg.streamingCode l c]).dropLast = bp := by simp
    constructor
    · intro x hx
      rw [h, hd] at hx
      rcases hbp with rfl | ⟨tb, rfl⟩
      · simp at hx
      · cases x with
        | streamingCode a b => exact absurd hx (rwcb_no_streaming tb a b)
        | text a => rfl
        | code a b => rfl
    · intro _
      exact ⟨hcf, hew⟩

/-- Claim C2, witness: the input "a\n```py\nx" produces a streaming
tail, and the amended theorem yields the fence-presence and
not-ended-complete facts for it. -/
theorem claim2_witness :
    containsFence ("a\n```py\nx".toList) = true ∧
    endsWithCompleteBlock ("a\n```py\nx".toList) = false :=
  (claim2_amended ("a\n```py\nx".toList)).2
    ⟨Seg.streamingCode ("py".toList) (['x']), by decide, by decide⟩

/-- Claim C5, counterexample.  Take B1 = "```js\nx\n``` t", whose output
ends in a StreamingCode tail and whose other segment is the Prose
segment over "x\n".  Appending "ail\n```" gives B2 =
"```js\nx\n``` tail\n```"; the closing fence now ends the buffer, the
complete-block scan wins, and B2's output is a CompleteCode "js"/"x"
segment plus Prose " tail\n" — the earlier Prose segment over "x\n" has
disappeared, so monotonic streaming fails. -/
theorem claim5_counterexample :
    renderStreamingContent ("```js\nx\n``` t".toList) =
      [Seg.text ("x\n".toList), Seg.streamingCode [] (" t".toList)] ∧
    renderStreamingContent ("```js\nx\n``` t".toList ++ "ail\n```".toList) =
      [Seg.code ("js".toList) (['x']), Seg.text (" tail\n".toList)] ∧
    Seg.text ("x\n".toList) ∉
      renderStreamingContent ("```js\nx\n``` t".toList ++ "ail\n```".toList) := by
  decide

/-- Claim C5, amended.  Monotonic streaming holds under the additional
assumptions that the text before the unmatched fence is non-empty and
backtick-free, the tag is a non-empty word-character run, and both the
partial body and the appended chunk contain no backtick: then B1 splits
to the Prose prefix plus a streaming tail, and B1 with the chunk
appended splits to the same Prose prefix plus the extended streaming
tail, so every pre-tail segment survives in order.  In general the
claim is false: appended text can complete the fence and reclassify the
pre-tail segments, as the counterexample shows. -/
theorem claim5_amended {P L C s : List Char} (hPne : P ≠ [])
    (hP : ∀ x ∈ P, x ≠ btick) (hLne : L ≠ []) (hL : L.all isWordChar = true)
    (hC : ∀ x ∈ C, x ≠ btick) (hs : ∀ x ∈ s, x ≠ btick) :
    renderStreamingContent (P ++ btick :: btick :: btick :: (L ++ '\n' :: C)) =
      [Seg.text P, Seg.streamingCode L C] ∧
    renderStreamingContent ((P ++ btick :: btick :: btick :: (L ++ '\n' :: C)) ++ s) =
      [Seg.text P, Seg.streamingCode L (C ++ s)] := by
  constructor
  · exact rsc_streaming_shape hPne hP hLne hL hC
  · have hCs : ∀ x ∈ C ++ s, x ≠ btick := by
      intro x hx
      rw [List.mem_append] at hx
      rcases hx with hx | hx
      · exact hC x hx
      · exact hs x hx
    have hre : (P ++ btick :: btick :: btick :: (L ++ '\n' :: C)) ++ s =
        P ++ btick :: btick :: btick :: (L ++ '\n' :: (C ++ s)) := by
      simp
    rw [hre]
    exact rsc_streaming_shape hPne hP hLne hL hCs

/-- Claim C5, witness: B1 = "hello\n```py\ncode", appended chunk
" more". -/
theorem claim5_witness :
    renderStreamingContent ("hello\n".toList ++ btick :: btick :: btick ::
        ("py".toList ++ '\n' :: "code".toList)) =
      [Seg.text ("hello\n".toList), Seg.streamingCode ("py".toList) ("code".toList)] ∧
    renderStreamingContent (("hello\n".toList ++ btick :: btick :: btick ::
        ("py".toList ++ '\n' :: "code".toList)) ++ " more".toList) =
      [Seg.text ("hello\n".toList), Seg.streamingCode ("py".toList) ("code more".toList)] := by
  have h := claim5_amended (P := "hello\n".toList) (L := "py".toList)
    (C := "code".toList) (s := " more".toList)
    (by decide) (by decide) (by decide) (by decide) (by decide) (by decide)
  refine ⟨h.1, ?_⟩
  rw [h.2]
  decide

/-- Claim C6, counterexample.  On the input "```js\n" the scan and the
cleanup both produce nothing, so the whole-input fallback of
renderWithCodeBlocks renders the raw text: the resulting Prose
segment's source (the string handed to the markdown renderer) still
contains the triple-backtick fence marker — nothing stripped it. -/
theorem claim6_counterexample :
    renderStreamingContent ("```js\n".toList) = [Seg.text ("```js\n".toList)] ∧
    containsFence ("```js\n".toList) = true := by
  decide

/-- Claim C6, amended.  The contents of CompleteCode and StreamingCode
segments never contain a triple-backtick marker, and the cleanup
applied to a text span before rendering always yields marker-free text;
but the whole-buffer fallback Prose segment (emitted when the scan and
cleanup produce nothing) carries the raw unstripped input, which may
contain markers, as the counterexample shows. -/
theorem claim6_amended (t : List Char) :
    (∀ l c, Seg.code l c ∈ renderStreamingContent t → containsFence c = false) ∧
    (∀ l c, Seg.streamingCode l c ∈ renderStreamingContent t → containsFence c = false) ∧
    (∀ s, containsFence (cleanText s) = false) := by
  refine ⟨?_, ?_, containsFence_cleanText⟩
  · intro l c hmem
    rcases rsc_cases t with h | ⟨bp, l2, c2, h, hbp, -, -⟩
    · rw [h] at hmem
      exact rwcb_code_content hmem
    · rw [h, List.mem_append] at hmem
      rcases hmem with hm | hm
      · rcases hbp with rfl | ⟨tb, rfl⟩
        · simp at hm
        · exact rwcb_code_content hm
      · rw [List.mem_singleton] at hm
        exact Seg.noConfusion hm
  · intro l c hmem
    exact rsc_streaming_content hmem

/-- Claim C6, witness: the input "a\n```js\nco\n```" produces a
CompleteCode segment with content "co", which contains no fence marker,
and cleanup of the span "x```y" is marker-free. -/
theorem claim6_witness :
    containsFence ("co".toList) = false ∧
    containsFence (cleanText ("x```y".toList)) = false := by
  have h := claim6_amended ("a\n```js\nco\n```".toList)
  exact ⟨h.1 ("js".toList) ("co".toList) (by decide), h.2.2 ("x```y".toList)⟩

/-- Claim C7: the splitter is a pure function of its input string; in
this embedding both splitter entry points are Lean functions, so two
calls on the same string are definitionally the same structurally
identical segment sequence. -/
theorem claim7_determinism (t : List Char) :
    renderStreamingContent t = renderStreamingContent t ∧
    renderWithCodeBlocks t = renderWithCodeBlocks t :=
  ⟨rfl, rfl⟩

/-- Claim C10 (implicit): the splitter never returns an empty segment
sequence — for any input both entry points give at least one segment,
and when the fence scan produces no segments renderWithCodeBlocks falls
back to a single Prose segment carrying the whole input. -/
theorem claim10_nonempty (t : List Char) :
    renderStreamingContent t ≠ [] ∧ renderWithCodeBlocks t ≠ [] ∧
    (scanBlocks t = [] → renderWithCodeBlocks t = [Seg.text t]) := by
  have hrwcb : renderWithCodeBlocks t ≠ [] := by
    simp only [renderWithCodeBlocks]
    split
    · simp
    · rename_i h
      exact h
  refine ⟨?_, hrwcb, ?_⟩
  · rw [renderStreamingContent]
    split
    · split
      · exact hrwcb
      · split
        · simp
        · exact hrwcb
    · exact hrwcb
  · intro hsc
    simp [renderWithCodeBlocks, hsc]

/-- Claim C10, witness at the empty input, where the scan yields no
segments and the fallback fires. -/
theorem claim10_witness :
    renderStreamingContent [] ≠ [] ∧ renderWithCodeBlocks [] ≠ [] ∧
    renderWithCodeBlocks [] = [Seg.text []] := by
  have h := claim10_nonempty []
  exact ⟨h.1, h.2.1, h.2.2 (by decide)⟩

/-- Claim C8, counterexample.  For the fence "```c++\nx\n```" the
splitter does not treat the whole first line as having no tag: the
greedy word-character capture takes "c" as the language, and the tag
remainder "++" leaks into the segment's content. -/
theorem claim8_counterexample :
    renderWithCodeBlocks ("```c++\nx\n```".toList) =
      [Seg.code (['c']) ("++\nx".toList)] ∧
    (['c'] : List Char) ≠ ([] : List Char) := by
  decide

/-- Claim C8, amended.  For a fence whose tag line is a word-character
run W followed by a remainder starting with a non-word, non-newline
character (with the usual backtick-freeness conditions on the line and
body), the language is W — the maximal word prefix of the tag, empty
only when the tag starts with a non-word character — and the tag-line
remainder leaks into the content, which is the trimmed remainder plus
newline plus body. -/
theorem claim8_amended {W B : List Char} {r0 : Char} {R2 : List Char}
    (hW : W.all isWordChar = true) (hr0w : isWordChar r0 = false) (hr0n : r0 ≠ '\n')
    (hRB1 : containsFence ((r0 :: R2) ++ '\n' :: B) = false)
    (hRB2 : ((r0 :: R2) ++ '\n' :: B).getLast? ≠ some btick) :
    renderWithCodeBlocks (btick :: btick :: btick ::
        (W ++ ((r0 :: R2) ++ '\n' :: (B ++ btick :: btick :: btick :: [])))) =
      [Seg.code W (trimList ((r0 :: R2) ++ '\n' :: B))] :=
  rwcb_shape_tag hW hr0w hr0n hRB1 hRB2

/-- Claim C8, witness at the input "```c++\nx\n```": language "c",
content "++\nx". -/
theorem claim8_witness :
    renderWithCodeBlocks (btick :: btick :: btick ::
        ("c".toList ++ (('+' :: "+".toList) ++ '\n' ::
          ("x\n".toList ++ btick :: btick :: btick :: [])))) =
      [Seg.code ("c".toList) ("++\nx".toList)] := by
  rw [claim8_amended (by decide) (by decide) (by decide) (by decide) (by decide)]
  decide

/-- Claim C9, counterexample.  The language tag "PYTHON" is outside the
allow-list {javascript, python, html, css} as a string, yet invoking
the execute action does not produce the fixed not-supported message:
detectLanguage lower-cases the tag to "python" and the python executor
runs (here returning its own output). -/
theorem claim9_counterexample :
    ("PYTHON".toList ∉ canExecuteList) ∧
    executeCode
      ⟨fun _ => Except.error ("e".toList), fun _ => Except.ok ("ran python".toList),
        fun _ => Except.error ("e".toList), fun _ => Except.error ("e".toList)⟩
      ("PYTHON".toList) none [] =
      (ExecStatus.success, "ran python".toList) ∧
    containsList ("not supported".toList) ("ran python".toList) = false := by
  decide

/-- Claim C9, amended.  For every executor set, className, code text
and non-empty language tag whose lower-cased form is outside the
allow-list, executeCode returns status success together with the
message "Execution not supported for LANG language yet." (LANG being
the lower-cased tag) without invoking any executor, and canExecute is
false for that language.  For the empty tag the language is instead
auto-detected from the code contents, and tags are compared
case-insensitively, so the original claim fails. -/
theorem claim9_amended (ex : Executors) (cn : Option (List Char)) (code L : List Char)
    (hne : L ≠ []) (hout : toLowerList L ∉ canExecuteList) :
    executeCode ex L cn code =
      (ExecStatus.success, execNotSupportedMsg (toLowerList L)) ∧
    canExecute (toLowerList L) = false := by
  have hdl : detectLanguage L cn code = toLowerList L := by
    rw [detectLanguage.eq_def, if_pos hne]
  have hmem := hout
  simp only [canExecuteList, List.mem_cons, List.not_mem_nil, or_false, not_or] at hmem
  obtain ⟨h1, h2, h3, h4⟩ := hmem
  constructor
  · have hmsg : execNotSupportedMsg (toLowerList L) ≠ [] := by
      rw [execNotSupportedMsg]
      intro hcontra
      have hlen := congrArg List.length hcontra
      simp at hlen
    rw [executeCode, hdl, dispatchExec, if_neg h1, if_neg h2, if_neg h3, if_neg h4]
    simp [hmsg]
  · cases hv : canExecute (toLowerList L) with
    | false => rfl
    | true =>
      rw [canExecute] at hv
      exact absurd (by simpa using hv) hout

/-- Claim C9, witness at the tag "ruby" with all executors failing:
the result is success with the fixed message, untouched by the
executors. -/
theorem claim9_witness :
    executeCode
      ⟨fun _ => Except.error ("e".toList), fun _ => Except.error ("e".toList),
        fun _ => Except.error ("e".toList), fun _ => Except.error ("e".toList)⟩
      ("ruby".toList) none ("puts 1".toList) =
      (ExecStatus.success, execNotSupportedMsg ("ruby".toList)) ∧
    canExecute ("ruby".toList) = false := by
  have h := claim9_amended
    ⟨fun _ => Except.error ("e".toList), fun _ => Except.error ("e".toList),
      fun _ => Except.error ("e".toList), fun _ => Except.error ("e".toList)⟩
    none ("puts 1".toList) ("ruby".toList) (by decide) (by decide)
  refine ⟨?_, ?_⟩
  · rw [h.1]
    decide
  · have h2 := h.2
    rw [show toLowerList ("ruby".toList) = "ruby".toList from by decide] at h2
    exact h2
